import Mathlib

/-!
# KiCAD-Prism path resolution engine — shallow embedding

The repository's path-resolution subsystem (ConfigLoader, PathDetector,
PathResolver) lives in the Python backend (`path_config_service.py` and
friends), which is not part of the shipped sources; only its documentation
(`PROJECT_NAMING.md`), its TypeScript callers and the REST surface are.
The engine below is therefore modelled from the specification's words
(each such definition carries a `Modelled from the spec:` doc comment).
The Visualizer front-end component (3D-model URL construction) *is* in the
sources and is embedded directly from its TypeScript.

Paths are lists of components (`List String`), relative to the project
root unless stated otherwise; the project root itself is an absolute path,
also a list of components.  The filesystem is a finite read-only snapshot:
a list of file paths and a list of directory paths, both relative to the
project root.
-/

namespace KiCADPrism

/-- The closed set of nine path roles, from the spec's data model
(`PathSlot`) and the `PathConfig` interface in
`src/frontend/src/components/sidebar-tree.tsx`. -/
inductive PathSlot
  | schematic
  | pcb
  | subsheets
  | designOutputs
  | manufacturingOutputs
  | documentation
  | thumbnail
  | readme
  | jobset
deriving DecidableEq

/-- All nine slots, each exactly once. -/
def PathSlot.all : List PathSlot :=
  [.schematic, .pcb, .subsheets, .designOutputs, .manufacturingOutputs,
   .documentation, .thumbnail, .readme, .jobset]

/-- A relative path as a list of components. -/
abbrev RelPath := List String

/-- A read-only snapshot of the project tree: files and directories,
as component lists relative to the project root (the root itself is `[]`
and is not listed). -/
structure FileSystem where
  files : List RelPath
  dirs : List RelPath
deriving DecidableEq

/-- A path exists on disk when it names a file or a directory of the
snapshot. -/
def pathExists (fs : FileSystem) (p : RelPath) : Bool :=
  decide (p ∈ fs.files) || decide (p ∈ fs.dirs)

/-! ## Character and string utilities

`String.decidableLT` does not reduce in the kernel, so ordering and
case-folding are defined over `String.data` directly. -/

/-- Lower-case a string, character by character. -/
def lowerStr (s : String) : String := String.mk (s.data.map Char.toLower)

/-- `listLead n h`: `n` is an initial run of `h`. -/
def listLead [DecidableEq α] : List α → List α → Bool
  | [], _ => true
  | _ :: _, [] => false
  | a :: as, b :: bs => decide (a = b) && listLead as bs

/-- `n` occurs contiguously inside `h`. -/
def listInside (n : List Char) : List Char → Bool
  | [] => listLead n []
  | c :: cs => listLead n (c :: cs) || listInside n cs

/-- Case-sensitive substring test. -/
def strInside (hay needle : String) : Bool := listInside needle.data hay.data

/-- `suf` is a final run of `s`. -/
def strEndsW (s suf : String) : Bool := listLead suf.data.reverse s.data.reverse

/-- `pre` is an initial run of `s`. -/
def strStartsW (s pre : String) : Bool := listLead pre.data s.data

/-- Strict lexicographic order on character lists via code points. -/
def chListLt : List Char → List Char → Bool
  | [], [] => false
  | [], _ :: _ => true
  | _ :: _, [] => false
  | a :: as, b :: bs => if a = b then chListLt as bs else decide (a.toNat < b.toNat)

/-- Strict lexicographic order on strings. -/
def strLt (a b : String) : Bool := chListLt a.data b.data

/-- Non-strict lexicographic order on component lists, comparing
component strings lexicographically. -/
def pathLe : List String → List String → Bool
  | [], _ => true
  | _ :: _, [] => false
  | a :: as, b :: bs => if a = b then pathLe as bs else strLt a b

/-- Split a character stream at `'/'` separators. -/
def splitCharsAux : List Char → List Char → List String
  | [], acc => [String.mk acc.reverse]
  | c :: cs, acc =>
    if c = '/' then String.mk acc.reverse :: splitCharsAux cs []
    else splitCharsAux cs (c :: acc)

/-- Split a path string into its `/`-separated components. -/
def splitPath (s : String) : List String := splitCharsAux s.data []

/-- Render a component list back to a `/`-separated string. -/
def pathToString : RelPath → String
  | [] => ""
  | [c] => c
  | c :: rest => c ++ "/" ++ pathToString rest

/-- Modelled from the spec: normalization of a spec's components with a
stack — `.` and empty components vanish, `..` pops, and popping an empty
stack is an escape above the project root (`none`). -/
def normComps : List String → List String → Option RelPath
  | acc, [] => some acc.reverse
  | acc, c :: rest =>
    if c = "" ∨ c = "." then normComps acc rest
    else if c = ".." then
      match acc with
      | [] => none
      | _ :: acc2 => normComps acc2 rest
    else normComps (c :: acc) rest

/-- Modelled from the spec: a spec string is normalized relative to the
project root; absolute overrides and `..` escapes are rejected (`none`).
This is the containment check of §4.3 of the spec. -/
def normalizeSpec (s : String) : Option RelPath :=
  match s.data with
  | '/' :: _ => none
  | _ => normComps [] (splitPath s)

/-- Every component is free of the glob metacharacter `*`. -/
def noGlob (rel : RelPath) : Bool :=
  rel.all (fun comp => decide (¬ ('*' ∈ comp.data)))

/-! ## Deterministic ordering (insertion sort by a Boolean comparator) -/

/-- Insert `a` into `l` before the first element it compares at or below. -/
def insertBy (le : α → α → Bool) (a : α) : List α → List α
  | [] => [a]
  | b :: bs => if le a b then a :: b :: bs else b :: insertBy le a bs

/-- Stable insertion sort by a Boolean comparator. -/
def sortBy (le : α → α → Bool) : List α → List α
  | [] => []
  | a :: as => insertBy le a (sortBy le as)

/-! ## Glob matching

Fuel-indexed so that the functions are structurally recursive and reduce
in the kernel; the initial fuel always suffices. -/

/-- One-segment glob match: `*` matches any run of characters, every other
character matches itself. -/
def globSegF : Nat → List Char → List Char → Bool
  | 0, _, _ => false
  | fuel + 1, pat, cs =>
    match pat with
    | [] => decide (cs = [])
    | p :: ps =>
      if p = '*' then
        globSegF fuel ps cs ||
          (match cs with
           | [] => false
           | _ :: cs2 => globSegF fuel (p :: ps) cs2)
      else
        match cs with
        | [] => false
        | c :: cs2 => decide (p = c) && globSegF fuel ps cs2

/-- One-segment glob match with sufficient fuel. -/
def globSeg (pat cs : List Char) : Bool :=
  globSegF (pat.length + cs.length + 1) pat cs

/-- Modelled from the spec: a multi-segment glob pattern matched against a
relative path component-wise; a `**` segment matches any run of directory
components. -/
def globPathF : Nat → List String → RelPath → Bool
  | 0, _, _ => false
  | fuel + 1, pat, f =>
    match pat with
    | [] => decide (f = [])
    | p :: ps =>
      if p = "**" then
        globPathF fuel ps f ||
          (match f with
           | [] => false
           | _ :: f2 => globPathF fuel (p :: ps) f2)
      else
        match f with
        | [] => false
        | c :: f2 => globSeg p.data c.data && globPathF fuel ps f2

/-- Multi-segment glob match with sufficient fuel. -/
def globPath (pat : List String) (f : RelPath) : Bool :=
  globPathF (pat.length + f.length + 1) pat f

/-- Modelled from the spec: the files matching a glob spec, in
lexicographic order of the full relative path (§4.3 glob expansion). -/
def globMatches (fs : FileSystem) (rel : RelPath) : List RelPath :=
  sortBy pathLe (fs.files.filter (fun f => globPath rel f))

/-! ## PathDetector — modelled from spec §4.2 -/

/-- Modelled from the spec: recursion depth cap for the tree scan
(depth ≤ 3 from root). -/
def depthCap : Nat := 3

/-- Modelled from the spec: cap on total directories visited (≤ 2000). -/
def nodeCap : Nat := 2000

/-- The final component naming a directory or file. -/
def leafName (p : RelPath) : String := p.getLastD ""

/-- Modelled from the spec: scan-order comparator — shallower directories
beat deeper ones; among equal depth the lexicographically first directory
name wins (full-path order as the last resort for reproducibility). -/
def scanLe (p q : RelPath) : Bool :=
  if p.length < q.length then true
  else if q.length < p.length then false
  else if leafName p = leafName q then pathLe p q
  else strLt (leafName p) (leafName q)

/-- Modelled from the spec: the directories the detector visits — an
iterative traversal in shallowest-then-lexicographic order, cut off at
`depthCap` and truncated after `nodeCap` visited directories, so the scan
is structurally bounded on any tree. -/
def scanDirs (fs : FileSystem) : List RelPath :=
  (sortBy scanLe
    (fs.dirs.filter (fun d => decide (1 ≤ d.length) && decide (d.length ≤ depthCap)))).take
    nodeCap

/-- Modelled from the spec: a per-slot detection heuristic — candidate
directory-name substrings (case-insensitive) and, where applicable,
required file extensions inside candidate directories. -/
structure DetectionRule where
  keywords : List String
  contentExts : List String
deriving DecidableEq

/-- The directory name matches one of the rule's keywords,
case-insensitively, as a substring. -/
def nameMatchesRule (r : DetectionRule) (name : String) : Bool :=
  r.keywords.any (fun k => strInside (lowerStr name) (lowerStr k))

/-- The directory directly contains at least one file with one of the
rule's expected extensions (an empty extension list imposes nothing). -/
def contentOk (fs : FileSystem) (r : DetectionRule) (d : RelPath) : Bool :=
  r.contentExts.isEmpty ||
    fs.files.any (fun f =>
      decide (f.length = d.length + 1) && listLead d f &&
        r.contentExts.any (fun e => strEndsW (lowerStr (leafName f)) e))

/-- A directory both name-matches the rule and passes its content check. -/
def fullMatch (fs : FileSystem) (r : DetectionRule) (d : RelPath) : Bool :=
  nameMatchesRule r (leafName d) && contentOk fs r d

/-- Modelled from the spec: directory detection for a rule — the first
scanned directory passing name and content checks wins; failing that, the
first name-only match is returned with low confidence (`false`); failing
that, not detected. -/
def detectDir (fs : FileSystem) (r : DetectionRule) : Option (RelPath × Bool) :=
  match (scanDirs fs).find? (fun d => fullMatch fs r d) with
  | some d => some (d, true)
  | none =>
    match (scanDirs fs).find? (fun d => nameMatchesRule r (leafName d)) with
    | some d => some (d, false)
    | none => none

/-- Modelled from the spec: keyword/content rule for `subsheets`. -/
def subsheetsRule : DetectionRule :=
  { keywords := ["sheet", "schematic", "pages"], contentExts := [".kicad_sch"] }

/-- Modelled from the spec: keyword/content rule for `designOutputs`
(PDFs / 3D models). -/
def designOutputsRule : DetectionRule :=
  { keywords := ["output", "export", "build", "dist"],
    contentExts := [".pdf", ".step", ".glb", ".wrl"] }

/-- Modelled from the spec: keyword rule for `manufacturingOutputs`. -/
def manufacturingRule : DetectionRule :=
  { keywords := ["gerber", "fab", "mfg", "manufacturing"], contentExts := [] }

/-- Modelled from the spec: keyword/content rule for `documentation`
(markdown). -/
def documentationRule : DetectionRule :=
  { keywords := ["doc", "wiki", "guide", "manual"], contentExts := [".md"] }

/-- Modelled from the spec: keyword/content rule for `thumbnail`
(images). -/
def thumbnailRule : DetectionRule :=
  { keywords := ["assets", "images", "renders", "thumbnail"],
    contentExts := [".png", ".jpg", ".jpeg", ".svg"] }

/-- The filename stem left after removing a known extension. -/
def fileStem (name ext : String) : String :=
  String.mk (name.data.take (name.data.length - ext.data.length))

/-- Modelled from the spec: schematic/PCB detection — files with the known
extension directly in the project root only; prefer the candidate whose
stem matches the root directory's name, otherwise the lexicographically
first candidate. -/
def detectRootFile (fs : FileSystem) (rootName ext : String) : Option RelPath :=
  let cands := sortBy pathLe
    (fs.files.filter (fun f => decide (f.length = 1) && strEndsW (leafName f) ext))
  match cands.filter (fun f => decide (fileStem (leafName f) ext = rootName)) with
  | c :: _ => some c
  | [] => cands.head?

/-- Modelled from the spec: exact case-insensitive filename match in the
project root. -/
def detectNamedFile (fs : FileSystem) (lowerName : String) : Option RelPath :=
  (sortBy pathLe
    (fs.files.filter (fun f =>
      decide (f.length = 1) && decide (lowerStr (leafName f) = lowerName)))).head?

/-- Modelled from the spec: extension match in the project root only. -/
def detectExtFile (fs : FileSystem) (ext : String) : Option RelPath :=
  (sortBy pathLe
    (fs.files.filter (fun f =>
      decide (f.length = 1) && strEndsW (lowerStr (leafName f)) ext))).head?

/-- Modelled from the spec: the PathDetector — for a slot not explicitly
configured, propose a best-guess relative path by scanning the project
tree; `none` is "not detected". -/
def detectSlot (fs : FileSystem) (rootName : String) : PathSlot → Option RelPath
  | .schematic => detectRootFile fs rootName ".kicad_sch"
  | .pcb => detectRootFile fs rootName ".kicad_pcb"
  | .subsheets => (detectDir fs subsheetsRule).map (·.1)
  | .designOutputs => (detectDir fs designOutputsRule).map (·.1)
  | .manufacturingOutputs => (detectDir fs manufacturingRule).map (·.1)
  | .documentation => (detectDir fs documentationRule).map (·.1)
  | .thumbnail => (detectDir fs thumbnailRule).map (·.1)
  | .readme => detectNamedFile fs "readme.md"
  | .jobset => detectExtFile fs ".kicad_jobset"

/-! ## ConfigLoader — modelled from spec §4.1 -/

/-- A value found under a key of the descriptor's `paths` mapping: either a
string or some other (non-string) structured value. -/
inductive RawValue
  | str (s : String)
  | nonString
deriving DecidableEq

/-- Modelled from the spec: what looking up the single well-known
descriptor file (`.prism.json`) directly inside the project root can
yield — absent, present but unparseable (with the parse-failure detail),
or parsed to its `paths` key/value entries.  The independent optional
`projectName` field is a passthrough unrelated to path resolution and is
omitted. -/
inductive DescriptorFile
  | absent
  | unparseable (detail : String)
  | parsed (entries : List (String × RawValue))
deriving DecidableEq

/-- The closed key set of the descriptor's `paths` mapping. -/
def slotOfKey : String → Option PathSlot
  | "schematic" => some .schematic
  | "pcb" => some .pcb
  | "subsheets" => some .subsheets
  | "designOutputs" => some .designOutputs
  | "manufacturingOutputs" => some .manufacturingOutputs
  | "documentation" => some .documentation
  | "thumbnail" => some .thumbnail
  | "readme" => some .readme
  | "jobset" => some .jobset
  | _ => none

/-- Diagnostics of a resolution pass. -/
inductive Diag
  | parseFailure (detail : String)
  | unknownKey (key : String)
  | outsideRoot (slot : PathSlot) (specVal : String)
  | explicitMissing (slot : PathSlot) (specVal : String)
  | pathNotFound (slot : PathSlot) (specVal : String)
  | globAmbiguous (slot : PathSlot) (total : Nat)
deriving DecidableEq

/-- Fatal diagnostics go to the result's `errors` list; the rest are
warnings (spec §7 taxonomy). -/
def Diag.isError : Diag → Bool
  | .outsideRoot _ _ => true
  | .explicitMissing _ _ => true
  | _ => false

/-- Modelled from the spec: fold the descriptor's `paths` entries into a
per-slot optional spec string — keys outside the closed `PathSlot` set are
ignored with a warning, and non-string or empty values leave the slot
absent. -/
def loadEntries : List (String × RawValue) → (PathSlot → Option String) × List Diag
  | [] => (fun _ => none, [])
  | (k, v) :: rest =>
    match slotOfKey k with
    | none => ((loadEntries rest).1, .unknownKey k :: (loadEntries rest).2)
    | some s =>
      match v with
      | .nonString => loadEntries rest
      | .str sv =>
        if sv = "" then loadEntries rest
        else (fun t => if t = s then some sv else (loadEntries rest).1 t,
              (loadEntries rest).2)

/-- Modelled from the spec: the ConfigLoader — an absent descriptor yields
the empty config; an unparseable one is treated as absent plus a warning
carrying the parse-failure detail; a parsed one is validated entry by
entry.  It never fails. -/
def loadConfig : DescriptorFile → (PathSlot → Option String) × List Diag
  | .absent => (fun _ => none, [])
  | .unparseable detail => (fun _ => none, [.parseFailure detail])
  | .parsed entries => loadEntries entries

/-! ## PathResolver — modelled from spec §4.3 -/

/-- The tier a slot's entry was produced by. -/
inductive PathSource
  | explicitSrc
  | detected
  | defaultSrc
  | unresolved
deriving DecidableEq

/-- Output unit of a resolution pass: slot, resolved absolute path or
none, source tier, validity flag. -/
structure ResolvedPathEntry where
  slot : PathSlot
  path : Option (List String)
  source : PathSource
  valid : Bool
deriving DecidableEq

/-- The resolution tier a value under test came from. -/
inductive Tier
  | explicitT
  | detectedT
  | defaultT
deriving DecidableEq

/-- The source tag a successfully validated value of a tier receives. -/
def tierSource : Tier → PathSource
  | .explicitT => .explicitSrc
  | .detectedT => .detected
  | .defaultT => .defaultSrc

/-- Modelled from the spec: the per-slot outcome when the tier's value
does not exist on disk — fatal for explicit config (entry invalid, error),
non-fatal for detected/default values (entry `unresolved`, warning). -/
def missOutcome (s : PathSlot) (v : String) : Tier → ResolvedPathEntry × List Diag
  | .explicitT => (⟨s, none, .explicitSrc, false⟩, [.explicitMissing s v])
  | .detectedT => (⟨s, none, .unresolved, false⟩, [.pathNotFound s v])
  | .defaultT => (⟨s, none, .unresolved, false⟩, [.pathNotFound s v])

/-- The slots whose spec strings are glob patterns. -/
def isGlobSlot : PathSlot → Bool
  | .schematic => true
  | .pcb => true
  | _ => false

/-- Modelled from the spec: hardcoded legacy defaults, one per slot
(§6). -/
def legacyDefault : PathSlot → String
  | .schematic => "*.kicad_sch"
  | .pcb => "*.kicad_pcb"
  | .subsheets => "Subsheets"
  | .designOutputs => "Design-Outputs"
  | .manufacturingOutputs => "Manufacturing-Outputs"
  | .documentation => "docs"
  | .thumbnail => "assets/thumbnail"
  | .readme => "README.md"
  | .jobset => "Outputs.kicad_jobset"

/-- Modelled from the spec: validate an already-normalized relative value
for a slot against the filesystem — glob slots are expanded with a
deterministic lexicographic pick (ambiguity warned with the total match
count), literal slots are checked for existence; a successful entry's
absolute path is the value joined to the project root. -/
def resolveRel (root : List String) (fs : FileSystem) (s : PathSlot) (vStr : String)
    (rel : RelPath) (tier : Tier) : ResolvedPathEntry × List Diag :=
  if isGlobSlot s then
    match globMatches fs rel with
    | [] => missOutcome s vStr tier
    | m :: rest =>
      (⟨s, some (root ++ m), tierSource tier, true⟩,
       if rest.isEmpty then [] else [.globAmbiguous s (rest.length + 1)])
  else
    if pathExists fs rel then (⟨s, some (root ++ rel), tierSource tier, true⟩, [])
    else missOutcome s vStr tier

/-- The existence check `resolveRel` applies to a normalized value: glob
slots require at least one matching file, literal slots require the path
to exist. -/
def slotFound (fs : FileSystem) (s : PathSlot) (rel : RelPath) : Bool :=
  if isGlobSlot s then !(globMatches fs rel).isEmpty else pathExists fs rel

/-- Modelled from the spec: resolve one tier's spec string for a slot —
normalization failure (absolute override or `..` escape) is fatal
regardless of tier. -/
def resolveValue (root : List String) (fs : FileSystem) (s : PathSlot) (v : String)
    (tier : Tier) : ResolvedPathEntry × List Diag :=
  match normalizeSpec v with
  | none => (⟨s, none, tierSource tier, false⟩, [.outsideRoot s v])
  | some rel => resolveRel root fs s v rel tier

/-- Modelled from the spec: per-slot resolution — first satisfied tier
wins, with no merging across tiers: explicit config, else detection, else
the legacy default. -/
def resolveSlot (root : List String) (fs : FileSystem)
    (config : PathSlot → Option String) (det : PathSlot → Option RelPath)
    (s : PathSlot) : ResolvedPathEntry × List Diag :=
  match config s with
  | some v => resolveValue root fs s v .explicitT
  | none =>
    match det s with
    | some rel => resolveRel root fs s (pathToString rel) rel .detectedT
    | none => resolveValue root fs s (legacyDefault s) .defaultT

/-- The full output of a resolution pass: one entry per slot, plus ordered
warnings and ordered errors. -/
structure ResolutionResult where
  entries : List ResolvedPathEntry
  warnings : List Diag
  errors : List Diag
deriving DecidableEq

/-- Modelled from the spec: one complete resolution pass over all nine
slots for a project root that exists and is a directory. -/
def resolveProject (root : List String) (rootName : String) (fs : FileSystem)
    (descriptor : DescriptorFile) : ResolutionResult :=
  let cfg := loadConfig descriptor
  let results := PathSlot.all.map (fun s => resolveSlot root fs cfg.1 (detectSlot fs rootName) s)
  { entries := results.map (·.1)
    warnings := cfg.2 ++ ((results.map (·.2)).flatten.filter (fun d => !d.isError))
    errors := (results.map (·.2)).flatten.filter (fun d => d.isError) }

/-- The project-root argument of a resolution call: catastrophically
missing, not a directory, or a directory with its snapshot, name and
optional descriptor. -/
inductive RootInput
  | missing
  | notDir
  | dir (root : List String) (rootName : String) (fs : FileSystem)
      (descriptor : DescriptorFile)

/-- Modelled from the spec: the resolution call — it fails outright only
for catastrophic inputs (project root missing or not a directory), and
otherwise always returns a complete `ResolutionResult`. -/
def resolve : RootInput → Except String ResolutionResult
  | .missing => .error "project root does not exist"
  | .notDir => .error "project root is not a directory"
  | .dir root rootName fs descriptor => .ok (resolveProject root rootName fs descriptor)

/-- The result's entries for one slot. -/
def entriesFor (r : ResolutionResult) (s : PathSlot) : List ResolvedPathEntry :=
  r.entries.filter (fun e => decide (e.slot = s))

/-! ## Visualizer 3D-model URL — embedded from `src/unnamed/part_001` -/

/-- One record of the `files?type=design` listing as the Visualizer
consumes it. -/
structure DesignFile where
  path : String
  name : String
deriving DecidableEq

/-- From `src/unnamed/part_001` (Visualizer, initial data fetch): the
predicate selecting a GLB model file from the design-files listing. -/
def isGlbModelFile (f : DesignFile) : Bool :=
  strStartsW (lowerStr f.path) "3dmodel/" && strEndsW (lowerStr f.name) ".glb"

/-- From `src/unnamed/part_001`: `files.find(...)` over the listing. -/
def findGlbFile (files : List DesignFile) : Option DesignFile :=
  files.find? isGlbModelFile

/-- From `src/unnamed/part_001`: the model URL chosen by the initial data
fetch — the first matching GLB file under the hardcoded `Design-Outputs`
asset route, else the `3d-model` endpoint when that probe succeeded, else
none. -/
def initialModelUrl (projectId : String) (files : List DesignFile)
    (modelEndpointOk : Bool) : Option String :=
  match findGlbFile files with
  | some f => some ("/api/projects/" ++ projectId ++ "/asset/Design-Outputs/" ++ f.path)
  | none =>
    if modelEndpointOk then some ("/api/projects/" ++ projectId ++ "/3d-model")
    else none

/-! ## Concrete scenarios from the spec's testable properties -/

/-- The empty explicit configuration. -/
def cfgNone : PathSlot → Option String := fun _ => none

/-- A detector finding nothing. -/
def detNone : PathSlot → Option RelPath := fun _ => none

/-- A sample absolute project root. -/
def rootR : List String := ["srv", "projects", "demo"]

/-- Scenario D's tree: both `outputs/` and `exports/` contain a PDF. -/
def fsD : FileSystem :=
  ⟨[["exports", "board.pdf"], ["outputs", "board.pdf"]], [["exports"], ["outputs"]]⟩

/-- Scenario E's tree: two schematic files in the root. -/
def fsE : FileSystem := ⟨[["a.kicad_sch"], ["b.kicad_sch"]], []⟩

/-- Scenario E's descriptor: an explicit schematic glob. -/
def descE : DescriptorFile := .parsed [("schematic", .str "*.kicad_sch")]

/-- A descriptor whose documentation spec escapes the project root. -/
def descEscape : DescriptorFile := .parsed [("documentation", .str "../../etc/passwd")]

/-- A tree with a root schematic and an existing `docs/` directory. -/
def fsDocs : FileSystem := ⟨[["main.kicad_sch"]], [["docs"]]⟩

/-- A descriptor declaring the existing `docs` directory. -/
def descDocs : DescriptorFile := .parsed [("documentation", .str "docs")]

/-- Scenario C's descriptor: explicit `documentation: "wiki"` with no
`wiki/` on disk. -/
def descWiki : DescriptorFile := .parsed [("documentation", .str "wiki")]

/-- The empty project tree. -/
def fsEmpty : FileSystem := ⟨[], []⟩

/-- A detector proposing a directory that does not exist. -/
def detGhost : PathSlot → Option RelPath :=
  fun t => if t = .documentation then some ["ghost"] else none

/-- A tree with a chain deeper than the depth cap plus a detectable
outputs directory. -/
def fsDeep : FileSystem :=
  ⟨[["outputs", "x.pdf"]],
   [["outputs"], ["a"], ["a", "b"], ["a", "b", "c"], ["a", "b", "c", "d"]]⟩

/-- A config declaring only the pcb slot. -/
def cfgPcbOnly : PathSlot → Option String :=
  fun s => if s = .pcb then some "x.kicad_pcb" else none

/-- A design-files listing containing one GLB model under `3DModel/`. -/
def glbFiles : List DesignFile := [⟨"3DModel/board.glb", "board.glb"⟩]

/-! # Lemmas

## Ordering lemmas -/

theorem chListLt_irrefl : ∀ a, chListLt a a = false
  | [] => rfl
  | a :: as => by simp [chListLt, chListLt_irrefl as]

theorem chListLt_trans : ∀ a b c, chListLt a b = true → chListLt b c = true →
    chListLt a c = true := by
  intro a
  induction a with
  | nil =>
    intro b c hab hbc
    cases b with
    | nil => simp [chListLt] at hab
    | cons b0 bs =>
      cases c with
      | nil => simp [chListLt] at hbc
      | cons c0 cs => simp [chListLt]
  | cons a0 as ih =>
    intro b c hab hbc
    cases b with
    | nil => simp [chListLt] at hab
    | cons b0 bs =>
      cases c with
      | nil => simp [chListLt] at hbc
      | cons c0 cs =>
        simp only [chListLt] at hab hbc ⊢
        by_cases h1 : a0 = b0
        · subst h1
          rw [if_pos rfl] at hab
          by_cases h2 : a0 = c0
          · subst h2
            rw [if_pos rfl] at hbc ⊢
            exact ih bs cs hab hbc
          · rw [if_neg h2] at hbc ⊢
            exact hbc
        · rw [if_neg h1] at hab
          by_cases h2 : b0 = c0
          · subst h2
            rw [if_neg h1]
            exact hab
          · rw [if_neg h2] at hbc
            by_cases h3 : a0 = c0
            · exfalso
              subst h3
              simp only [decide_eq_true_eq] at hab hbc
              omega
            · rw [if_neg h3]
              simp only [decide_eq_true_eq] at hab hbc ⊢
              omega

theorem chListLt_total : ∀ a b, a ≠ b → chListLt a b = true ∨ chListLt b a = true := by
  intro a
  induction a with
  | nil =>
    intro b hne
    cases b with
    | nil => exact absurd rfl hne
    | cons b0 bs => left; simp [chListLt]
  | cons a0 as ih =>
    intro b hne
    cases b with
    | nil => right; simp [chListLt]
    | cons b0 bs =>
      by_cases h1 : a0 = b0
      · subst h1
        have hne2 : as ≠ bs := fun h => hne (by rw [h])
        rcases ih bs hne2 with h | h
        · left; simp [chListLt, h]
        · right; simp [chListLt, h]
      · have hn : a0.toNat ≠ b0.toNat := fun h => h1 (Char.ext (UInt32.ext h))
        rcases Nat.lt_or_ge a0.toNat b0.toNat with h | h
        · left; simp [chListLt, if_neg h1, h]
        · right
          have : b0.toNat < a0.toNat := by omega
          simp [chListLt, if_neg (Ne.symm h1), this]

theorem strLt_irrefl (a : String) : strLt a a = false := chListLt_irrefl a.data

theorem strLt_trans {a b c : String} (h1 : strLt a b = true) (h2 : strLt b c = true) :
    strLt a c = true := chListLt_trans a.data b.data c.data h1 h2

theorem strLt_total {a b : String} (hne : a ≠ b) :
    strLt a b = true ∨ strLt b a = true :=
  chListLt_total a.data b.data (fun h => hne (String.ext h))

theorem pathLe_refl : ∀ a : List String, pathLe a a = true
  | [] => rfl
  | a :: as => by simp [pathLe, pathLe_refl as]

theorem pathLe_total : ∀ a b : List String, pathLe a b = true ∨ pathLe b a = true := by
  intro a
  induction a with
  | nil => intro b; left; cases b <;> rfl
  | cons a0 as ih =>
    intro b
    cases b with
    | nil => right; rfl
    | cons b0 bs =>
      by_cases h1 : a0 = b0
      · subst h1
        rcases ih bs with h | h
        · left; simp [pathLe, h]
        · right; simp [pathLe, h]
      · rcases strLt_total h1 with h | h
        · left; simp [pathLe, if_neg h1, h]
        · right; simp [pathLe, if_neg (Ne.symm h1), h]

theorem pathLe_trans : ∀ a b c : List String, pathLe a b = true → pathLe b c = true →
    pathLe a c = true := by
  intro a
  induction a with
  | nil => intro b c _ _; cases c <;> simp [pathLe]
  | cons a0 as ih =>
    intro b c hab hbc
    cases b with
    | nil => simp [pathLe] at hab
    | cons b0 bs =>
      cases c with
      | nil => simp [pathLe] at hbc
      | cons c0 cs =>
        simp only [pathLe] at hab hbc ⊢
        by_cases h1 : a0 = b0
        · subst h1
          rw [if_pos rfl] at hab
          by_cases h2 : a0 = c0
          · subst h2
            rw [if_pos rfl] at hbc ⊢
            exact ih bs cs hab hbc
          · rw [if_neg h2] at hbc ⊢
            exact hbc
        · rw [if_neg h1] at hab
          by_cases h2 : b0 = c0
          · subst h2
            rw [if_neg h1]
            exact hab
          · rw [if_neg h2] at hbc
            by_cases h3 : a0 = c0
            · exfalso
              subst h3
              have := strLt_trans hab hbc
              rw [strLt_irrefl] at this
              exact Bool.false_ne_true this
            · rw [if_neg h3]
              exact strLt_trans hab hbc

theorem scanLe_total (p q : RelPath) : scanLe p q = true ∨ scanLe q p = true := by
  simp only [scanLe]
  by_cases h1 : p.length < q.length
  · left; rw [if_pos h1]
  · by_cases h2 : q.length < p.length
    · right; rw [if_pos h2]
    · simp only [if_neg h1, if_neg h2]
      by_cases h3 : leafName p = leafName q
      · simp only [if_pos h3, if_pos h3.symm]
        exact pathLe_total p q
      · simp only [if_neg h3, if_neg (Ne.symm h3)]
        exact strLt_total h3

theorem scanLe_trans (p q r : RelPath) (hpq : scanLe p q = true)
    (hqr : scanLe q r = true) : scanLe p r = true := by
  simp only [scanLe] at hpq hqr ⊢
  by_cases h1 : p.length < q.length <;> by_cases h2 : q.length < r.length
  · rw [if_pos (by omega)]
  · rw [if_neg h2] at hqr
    by_cases h2b : r.length < q.length
    · rw [if_pos h2b] at hqr; exact absurd hqr (by simp)
    · rw [if_pos (by omega)]
  · rw [if_neg h1] at hpq
    by_cases h1b : q.length < p.length
    · rw [if_pos h1b] at hpq; exact absurd hpq (by simp)
    · rw [if_pos (by omega)]
  · rw [if_neg h1] at hpq
    rw [if_neg h2] at hqr
    by_cases h1b : q.length < p.length
    · rw [if_pos h1b] at hpq; exact absurd hpq (by simp)
    · by_cases h2b : r.length < q.length
      · rw [if_pos h2b] at hqr; exact absurd hqr (by simp)
      · rw [if_neg h1b] at hpq
        rw [if_neg h2b] at hqr
        rw [if_neg (by omega : ¬ p.length < r.length), if_neg (by omega : ¬ r.length < p.length)]
        by_cases m1 : leafName p = leafName q <;> by_cases m2 : leafName q = leafName r
        · rw [if_pos m1] at hpq
          rw [if_pos m2] at hqr
          rw [if_pos (m1.trans m2)]
          exact pathLe_trans p q r hpq hqr
        · rw [if_pos m1] at hpq
          rw [if_neg m2] at hqr
          rw [if_neg (by rw [m1]; exact m2), m1]
          exact hqr
        · rw [if_neg m1] at hpq
          rw [if_pos m2] at hqr
          rw [if_neg (by rw [← m2]; exact m1), ← m2]
          exact hpq
        · rw [if_neg m1] at hpq
          rw [if_neg m2] at hqr
          have htr := strLt_trans hpq hqr
          have m3 : leafName p ≠ leafName r := by
            intro h
            rw [h] at hpq
            have := strLt_trans hqr hpq
            rw [strLt_irrefl] at this
            exact Bool.false_ne_true this
          rw [if_neg m3]
          exact htr

/-! ## Insertion-sort lemmas -/

theorem mem_insertBy (le : α → α → Bool) (a b : α) (l : List α) :
    b ∈ insertBy le a l ↔ b = a ∨ b ∈ l := by
  induction l with
  | nil => simp [insertBy]
  | cons c cs ih =>
    simp only [insertBy]
    split
    · simp [List.mem_cons]
    · simp only [List.mem_cons, ih]
      tauto

theorem length_insertBy (le : α → α → Bool) (a : α) (l : List α) :
    (insertBy le a l).length = l.length + 1 := by
  induction l with
  | nil => rfl
  | cons c cs ih =>
    simp only [insertBy]
    split
    · rfl
    · simp [ih]

theorem mem_sortBy (le : α → α → Bool) (b : α) (l : List α) :
    b ∈ sortBy le l ↔ b ∈ l := by
  induction l with
  | nil => simp [sortBy]
  | cons c cs ih => simp [sortBy, mem_insertBy, ih]

theorem length_sortBy (le : α → α → Bool) (l : List α) :
    (sortBy le l).length = l.length := by
  induction l with
  | nil => rfl
  | cons c cs ih => simp [sortBy, length_insertBy, ih]

theorem pairwise_insertBy (le : α → α → Bool)
    (htot : ∀ x y, le x y = true ∨ le y x = true)
    (htrans : ∀ x y z, le x y = true → le y z = true → le x z = true)
    (a : α) {l : List α} (hl : l.Pairwise (fun x y => le x y = true)) :
    (insertBy le a l).Pairwise (fun x y => le x y = true) := by
  induction l with
  | nil => simp [insertBy]
  | cons b bs ih =>
    rcases List.pairwise_cons.mp hl with ⟨hb, hbs⟩
    simp only [insertBy]
    split
    next hab =>
      refine List.Pairwise.cons ?_ hl
      intro x hx
      rcases List.mem_cons.mp hx with rfl | hx2
      · exact hab
      · exact htrans a b x hab (hb x hx2)
    next hab =>
      have hba : le b a = true := by
        rcases htot a b with h | h
        · exact absurd h hab
        · exact h
      refine List.Pairwise.cons ?_ (ih hbs)
      intro x hx
      rcases (mem_insertBy le a x bs).mp hx with rfl | hx2
      · exact hba
      · exact hb x hx2

theorem pairwise_sortBy (le : α → α → Bool)
    (htot : ∀ x y, le x y = true ∨ le y x = true)
    (htrans : ∀ x y z, le x y = true → le y z = true → le x z = true)
    (l : List α) : (sortBy le l).Pairwise (fun x y => le x y = true) := by
  induction l with
  | nil => simp [sortBy]
  | cons c cs ih => exact pairwise_insertBy le htot htrans c ih

theorem sortBy_head_min (le : α → α → Bool)
    (htot : ∀ x y, le x y = true ∨ le y x = true)
    (htrans : ∀ x y z, le x y = true → le y z = true → le x z = true)
    {l : List α} {m : α} {rest : List α} (h : sortBy le l = m :: rest) :
    ∀ x ∈ l, le m x = true := by
  intro x hx
  have hx2 : x ∈ m :: rest := by
    rw [← h]
    exact (mem_sortBy le x l).mpr hx
  have hp := pairwise_sortBy le htot htrans l
  rw [h] at hp
  rcases List.mem_cons.mp hx2 with rfl | hx3
  · rcases htot x x with h0 | h0 <;> exact h0
  · exact (List.pairwise_cons.mp hp).1 x hx3

theorem find?_min (le : α → α → Bool)
    (htot : ∀ x y, le x y = true ∨ le y x = true) :
    ∀ {l : List α} {p : α → Bool} {m : α},
      l.Pairwise (fun x y => le x y = true) → l.find? p = some m →
      ∀ x ∈ l, p x = true → le m x = true := by
  intro l
  induction l with
  | nil => intro p m _ h; simp [List.find?] at h
  | cons a as ih =>
    intro p m hpw hf x hx hpx
    rcases List.pairwise_cons.mp hpw with ⟨ha, has⟩
    by_cases hpa : p a = true
    · rw [List.find?_cons_of_pos _ hpa] at hf
      injection hf with hf
      subst hf
      rcases List.mem_cons.mp hx with rfl | hx2
      · rcases htot x x with h0 | h0 <;> exact h0
      · exact ha x hx2
    · rw [List.find?_cons_of_neg _ (by simpa using hpa)] at hf
      rcases List.mem_cons.mp hx with rfl | hx2
      · exact absurd hpx hpa
      · exact ih has hf x hx2 hpx

/-! ## Glob lemmas: a metacharacter-free pattern matches exactly itself -/

theorem globSegF_eq : ∀ (fuel : Nat) (p c : List Char),
    p.length + c.length < fuel → '*' ∉ p →
    (globSegF fuel p c = true ↔ p = c) := by
  intro fuel
  induction fuel with
  | zero => intro p c hf _; exact absurd hf (Nat.not_lt_zero _)
  | succ n ih =>
    intro p c hf hstar
    cases p with
    | nil =>
      simp only [globSegF, decide_eq_true_eq]
      exact ⟨fun h => h.symm, fun h => h.symm⟩
    | cons p0 ps =>
      have hp0 : p0 ≠ '*' := fun h => hstar (h ▸ List.mem_cons_self p0 ps)
      simp only [globSegF, if_neg hp0]
      cases c with
      | nil => simp
      | cons c0 cs =>
        have hrec := ih ps cs (by simp at hf ⊢; omega)
          (fun h => hstar (List.mem_cons_of_mem p0 h))
        simp only [Bool.and_eq_true, decide_eq_true_eq, hrec, List.cons.injEq]

theorem globSeg_eq {p c : List Char} (hstar : '*' ∉ p) :
    (globSeg p c = true ↔ p = c) :=
  globSegF_eq (p.length + c.length + 1) p c (by omega) hstar

theorem globPathF_eq : ∀ (fuel : Nat) (pat : List String) (f : RelPath),
    pat.length + f.length < fuel → (∀ comp ∈ pat, '*' ∉ comp.data) →
    (globPathF fuel pat f = true ↔ pat = f) := by
  intro fuel
  induction fuel with
  | zero => intro pat f hf _; exact absurd hf (Nat.not_lt_zero _)
  | succ n ih =>
    intro pat f hf hstar
    cases pat with
    | nil =>
      simp only [globPathF, decide_eq_true_eq]
      exact ⟨fun h => h.symm, fun h => h.symm⟩
    | cons p ps =>
      have hp : p ≠ "**" := by
        intro h
        exact hstar p (List.mem_cons_self p ps) (by rw [h]; decide)
      simp only [globPathF, if_neg hp]
      cases f with
      | nil => simp
      | cons c cs =>
        have hseg : (globSeg p.data c.data = true ↔ p.data = c.data) :=
          globSeg_eq (hstar p (List.mem_cons_self p ps))
        have hrec := ih ps cs (by simp at hf ⊢; omega)
          (fun comp h => hstar comp (List.mem_cons_of_mem p h))
        simp only [Bool.and_eq_true, hseg, hrec, List.cons.injEq]
        constructor
        · rintro ⟨h1, h2⟩
          exact ⟨String.ext h1, h2⟩
        · rintro ⟨h1, h2⟩
          exact ⟨congrArg String.data h1, h2⟩

theorem globPath_eq {pat : List String} {f : RelPath}
    (hstar : ∀ comp ∈ pat, '*' ∉ comp.data) :
    (globPath pat f = true ↔ pat = f) :=
  globPathF_eq (pat.length + f.length + 1) pat f (by omega) hstar

theorem noGlob_star {rel : RelPath} (h : noGlob rel = true) :
    ∀ comp ∈ rel, '*' ∉ comp.data := by
  intro comp hc
  have := (List.all_eq_true.mp h) comp hc
  simpa using this

theorem globMatches_noGlob {fs : FileSystem} {rel : RelPath}
    (h : noGlob rel = true) :
    ∀ m ∈ globMatches fs rel, m = rel := by
  intro m hm
  have hm2 := (mem_sortBy pathLe m _).mp hm
  rcases List.mem_filter.mp hm2 with ⟨_, hg⟩
  exact ((globPath_eq (noGlob_star h)).mp hg).symm

theorem globMatches_mem_of_file {fs : FileSystem} {rel : RelPath}
    (h : noGlob rel = true) (hf : rel ∈ fs.files) :
    rel ∈ globMatches fs rel := by
  refine (mem_sortBy pathLe rel _).mpr (List.mem_filter.mpr ⟨hf, ?_⟩)
  exact (globPath_eq (noGlob_star h)).mpr rfl

/-! ## Structural lemmas about the resolver -/

theorem missOutcome_slot (s : PathSlot) (v : String) (t : Tier) :
    (missOutcome s v t).1.slot = s := by
  cases t <;> rfl

theorem missOutcome_path (s : PathSlot) (v : String) (t : Tier) :
    (missOutcome s v t).1.path = none := by
  cases t <;> rfl

theorem resolveRel_slot (root : List String) (fs : FileSystem) (s : PathSlot)
    (vStr : String) (rel : RelPath) (t : Tier) :
    (resolveRel root fs s vStr rel t).1.slot = s := by
  simp only [resolveRel]
  split
  · split
    · exact missOutcome_slot s vStr t
    · rfl
  · split
    · rfl
    · exact missOutcome_slot s vStr t

theorem resolveValue_slot (root : List String) (fs : FileSystem) (s : PathSlot)
    (v : String) (t : Tier) :
    (resolveValue root fs s v t).1.slot = s := by
  simp only [resolveValue]
  split
  · rfl
  · exact resolveRel_slot root fs s v _ t

theorem resolveSlot_slot (root : List String) (fs : FileSystem)
    (config : PathSlot → Option String) (det : PathSlot → Option RelPath)
    (s : PathSlot) : (resolveSlot root fs config det s).1.slot = s := by
  simp only [resolveSlot]
  split
  · exact resolveValue_slot root fs s _ .explicitT
  · split
    · exact resolveRel_slot root fs s _ _ .detectedT
    · exact resolveValue_slot root fs s _ .defaultT

theorem resolveRel_path (root : List String) (fs : FileSystem) (s : PathSlot)
    (vStr : String) (rel : RelPath) (t : Tier) {p : List String}
    (h : (resolveRel root fs s vStr rel t).1.path = some p) :
    ∃ q, p = root ++ q := by
  simp only [resolveRel] at h
  split at h
  · split at h
    · rw [missOutcome_path] at h
      exact absurd h (by simp)
    · exact ⟨_, (Option.some.injEq _ _ ▸ h).symm⟩
  · split at h
    · exact ⟨_, (Option.some.injEq _ _ ▸ h).symm⟩
    · rw [missOutcome_path] at h
      exact absurd h (by simp)

theorem resolveValue_path (root : List String) (fs : FileSystem) (s : PathSlot)
    (v : String) (t : Tier) {p : List String}
    (h : (resolveValue root fs s v t).1.path = some p) :
    ∃ q, p = root ++ q := by
  simp only [resolveValue] at h
  split at h
  · exact absurd h (by simp)
  · exact resolveRel_path root fs s v _ t h

theorem resolveSlot_path (root : List String) (fs : FileSystem)
    (config : PathSlot → Option String) (det : PathSlot → Option RelPath)
    (s : PathSlot) {p : List String}
    (h : (resolveSlot root fs config det s).1.path = some p) :
    ∃ q, p = root ++ q := by
  simp only [resolveSlot] at h
  split at h
  · exact resolveValue_path root fs s _ .explicitT h
  · split at h
    · exact resolveRel_path root fs s _ _ .detectedT h
    · exact resolveValue_path root fs s _ .defaultT h

theorem mem_slot_all (s : PathSlot) : s ∈ PathSlot.all := by
  cases s <;> decide

theorem resolveProject_entries (root : List String) (rootName : String)
    (fs : FileSystem) (d : DescriptorFile) :
    (resolveProject root rootName fs d).entries =
      PathSlot.all.map
        (fun s => (resolveSlot root fs (loadConfig d).1 (detectSlot fs rootName) s).1) := by
  simp [resolveProject, List.map_map, Function.comp]

theorem entriesFor_eq (root : List String) (rootName : String)
    (fs : FileSystem) (d : DescriptorFile) (s : PathSlot) :
    entriesFor (resolveProject root rootName fs d) s =
      [(resolveSlot root fs (loadConfig d).1 (detectSlot fs rootName) s).1] := by
  rw [entriesFor, resolveProject_entries, List.filter_map]
  have h1 : (PathSlot.all.filter
      ((fun e => decide (e.slot = s)) ∘
        (fun t => (resolveSlot root fs (loadConfig d).1 (detectSlot fs rootName) t).1))) =
      PathSlot.all.filter (fun t => decide (t = s)) := by
    apply List.filter_congr
    intro t _
    simp [Function.comp, resolveSlot_slot]
  rw [h1]
  have h2 : PathSlot.all.filter (fun t => decide (t = s)) = [s] := by
    cases s <;> rfl
  rw [h2, List.map_cons, List.map_nil]

theorem mem_errors_of_slot (root : List String) (rootName : String)
    (fs : FileSystem) (desc : DescriptorFile) (s : PathSlot) {d : Diag}
    (hd : d ∈ (resolveSlot root fs (loadConfig desc).1 (detectSlot fs rootName) s).2)
    (he : d.isError = true) :
    d ∈ (resolveProject root rootName fs desc).errors := by
  simp only [resolveProject]
  refine List.mem_filter.mpr ⟨?_, he⟩
  refine List.mem_flatten.mpr ⟨_, ?_, hd⟩
  exact List.mem_map.mpr ⟨_, List.mem_map.mpr ⟨s, mem_slot_all s, rfl⟩, rfl⟩

theorem mem_warnings_of_slot (root : List String) (rootName : String)
    (fs : FileSystem) (desc : DescriptorFile) (s : PathSlot) {d : Diag}
    (hd : d ∈ (resolveSlot root fs (loadConfig desc).1 (detectSlot fs rootName) s).2)
    (he : d.isError = false) :
    d ∈ (resolveProject root rootName fs desc).warnings := by
  simp only [resolveProject]
  refine List.mem_append.mpr (Or.inr ?_)
  refine List.mem_filter.mpr ⟨?_, by simp [he]⟩
  refine List.mem_flatten.mpr ⟨_, ?_, hd⟩
  exact List.mem_map.mpr ⟨_, List.mem_map.mpr ⟨s, mem_slot_all s, rfl⟩, rfl⟩

theorem not_mem_errors (root : List String) (rootName : String) (fs : FileSystem)
    (desc : DescriptorFile) {d : Diag} (h : d.isError = false) :
    d ∉ (resolveProject root rootName fs desc).errors := by
  intro hm
  simp only [resolveProject] at hm
  have := (List.mem_filter.mp hm).2
  rw [h] at this
  exact Bool.false_ne_true this

theorem resolveRel_miss {fs : FileSystem} {s : PathSlot} {rel : RelPath}
    (hf : slotFound fs s rel = false) (root : List String) (vStr : String) (t : Tier) :
    resolveRel root fs s vStr rel t = missOutcome s vStr t := by
  rw [slotFound] at hf
  by_cases hg : isGlobSlot s = true
  · rw [if_pos hg] at hf
    cases hm : globMatches fs rel with
    | nil => simp [resolveRel, hg, hm]
    | cons m rest => rw [hm] at hf; simp at hf
  · have hg2 : isGlobSlot s = false := by simpa using hg
    rw [if_neg hg] at hf
    simp [resolveRel, hg2, hf]

theorem resolveRel_found_noGlob {fs : FileSystem} {s : PathSlot} {rel : RelPath}
    (hg : noGlob rel = true) (hf : slotFound fs s rel = true)
    (root : List String) (vStr : String) (t : Tier) :
    (resolveRel root fs s vStr rel t).1 = ⟨s, some (root ++ rel), tierSource t, true⟩ := by
  rw [slotFound] at hf
  by_cases hgs : isGlobSlot s = true
  · rw [if_pos hgs] at hf
    cases hm : globMatches fs rel with
    | nil => rw [hm] at hf; simp at hf
    | cons m rest =>
      have hmr : m = rel :=
        globMatches_noGlob hg m (hm ▸ List.mem_cons_self m rest)
      simp [resolveRel, hgs, hm, hmr]
  · have hg2 : isGlobSlot s = false := by simpa using hgs
    rw [if_neg hgs] at hf
    simp [resolveRel, hg2, hf]

/-! # Claims -/

/-- C3: for every resolution pass, regardless of input config and
filesystem state and of how many tiers failed, the output
`ResolutionResult` contains exactly one `ResolvedPathEntry` for each of
the 9 `PathSlot`s, even for slots left unresolved. -/
theorem c3_completeness (root : List String) (rootName : String) (fs : FileSystem)
    (d : DescriptorFile) (s : PathSlot) :
    (resolveProject root rootName fs d).entries.countP (fun e => decide (e.slot = s)) = 1 := by
  rw [List.countP_eq_length_filter]
  have h := entriesFor_eq root rootName fs d s
  rw [entriesFor] at h
  rw [h]
  rfl

/-- C4: the resolution call never throws for per-slot issues — for every
directory input it returns a `ResolutionResult` (with independent per-slot
outcomes: a slot's entry depends only on that slot's config and detection
values), and the call fails outright exactly for the catastrophic inputs
(root missing or not a directory). -/
theorem c4_no_wholesale_failure :
    (∀ (root : List String) (rootName : String) (fs : FileSystem) (d : DescriptorFile),
      resolve (.dir root rootName fs d) = .ok (resolveProject root rootName fs d)) ∧
    (∃ e, resolve .missing = .error e) ∧
    (∃ e, resolve .notDir = .error e) ∧
    (∀ (root : List String) (fs : FileSystem)
        (c1 c2 : PathSlot → Option String) (d1 d2 : PathSlot → Option RelPath)
        (s : PathSlot), c1 s = c2 s → d1 s = d2 s →
      resolveSlot root fs c1 d1 s = resolveSlot root fs c2 d2 s) := by
  refine ⟨fun _ _ _ _ => rfl, ⟨_, rfl⟩, ⟨_, rfl⟩, ?_⟩
  intro root fs c1 c2 d1 d2 s h1 h2
  simp only [resolveSlot, h1, h2]

/-- C4 witness: two configs agreeing on the schematic slot (one of them
declaring the pcb slot) resolve the schematic slot identically. -/
theorem c4_no_wholesale_failure_witness :
    cfgPcbOnly .schematic = cfgNone .schematic ∧
    resolveSlot rootR fsEmpty cfgPcbOnly detNone .schematic =
      resolveSlot rootR fsEmpty cfgNone detNone .schematic :=
  ⟨by decide,
   c4_no_wholesale_failure.2.2.2 rootR fsEmpty cfgPcbOnly cfgNone detNone detNone
     .schematic (by decide) rfl⟩

/-- C9: an unparseable descriptor loads like an absent one plus a warning
carrying the parse-failure detail; keys outside the closed slot set are
ignored with a warning; non-string or empty values leave the slot
absent. -/
theorem c9_config_loader (detail k : String) (v : RawValue)
    (rest : List (String × RawValue)) (s : PathSlot) :
    ((loadConfig (.unparseable detail)).1 = (loadConfig .absent).1 ∧
      (loadConfig (.unparseable detail)).2 = [.parseFailure detail]) ∧
    (slotOfKey k = none →
      loadEntries ((k, v) :: rest) =
        ((loadEntries rest).1, .unknownKey k :: (loadEntries rest).2)) ∧
    (slotOfKey k = some s → (v = .nonString ∨ v = .str "") →
      loadEntries ((k, v) :: rest) = loadEntries rest) := by
  refine ⟨⟨rfl, rfl⟩, ?_, ?_⟩
  · intro h
    simp [loadEntries, h]
  · intro h hv
    rcases hv with rfl | rfl
    · simp [loadEntries, h]
    · simp [loadEntries, h]

/-- C9 witness: a parse failure warns and yields the empty config, an
unknown key is ignored with a warning, and an empty string for a known
slot leaves the load unchanged. -/
theorem c9_config_loader_witness :
    (loadConfig (.unparseable "bad json")).2 = [.parseFailure "bad json"] ∧
    loadEntries [("futureKey", .str "x")] =
      ((loadEntries []).1, .unknownKey "futureKey" :: (loadEntries []).2) ∧
    loadEntries [("documentation", .str "")] = loadEntries [] :=
  ⟨(c9_config_loader "bad json" "futureKey" (.str "x") [] .documentation).1.2,
   (c9_config_loader "bad json" "futureKey" (.str "x") [] .documentation).2.1 (by decide),
   (c9_config_loader "bad json" "documentation" (.str "") [] .documentation).2.2
     (by decide) (Or.inr rfl)⟩

/-- C10: whenever the design-files listing contains a file whose path
starts (case-insensitively) with `3dmodel/` and whose name ends with
`.glb`, the Visualizer's initial data fetch sets the model URL to
`/api/projects/{projectId}/asset/Design-Outputs/{file.path}` — with the
legacy `Design-Outputs` directory name hardcoded. -/
theorem c10_visualizer_hardcoded_url (pid : String) (files : List DesignFile)
    (endpointOk : Bool) (hex : ∃ f ∈ files, isGlbModelFile f = true) :
    ∃ f, findGlbFile files = some f ∧ isGlbModelFile f = true ∧
      initialModelUrl pid files endpointOk =
        some ("/api/projects/" ++ pid ++ "/asset/Design-Outputs/" ++ f.path) := by
  cases h : findGlbFile files with
  | none =>
    rcases hex with ⟨f, hf, hglb⟩
    rw [findGlbFile] at h
    exact absurd hglb (by simpa using List.find?_eq_none.mp h f hf)
  | some f =>
    refine ⟨f, rfl, List.find?_some h, ?_⟩
    simp [initialModelUrl, h]

/-- C10 witness: a listing with `3DModel/board.glb` yields the hardcoded
`Design-Outputs` asset URL. -/
theorem c10_visualizer_hardcoded_url_witness :
    (∃ f ∈ glbFiles, isGlbModelFile f = true) ∧
    ∃ f, findGlbFile glbFiles = some f ∧ isGlbModelFile f = true ∧
      initialModelUrl "p1" glbFiles false =
        some ("/api/projects/" ++ "p1" ++ "/asset/Design-Outputs/" ++ f.path) :=
  ⟨by decide, c10_visualizer_hardcoded_url "p1" glbFiles false (by decide)⟩

/-- C1: when the explicit config declares a (literal, metacharacter-free)
value for a slot, the value stays within the project root, and the path it
denotes exists on disk, the output entry for that slot has source
`explicit` and resolved path equal to the config value joined to the
project root; the detector is never consulted for that slot (the per-slot
resolution is invariant under the detector), so tiers are never merged
within a slot. -/
theorem c1_explicit_priority (root : List String) (rootName : String)
    (fs : FileSystem) (d : DescriptorFile) (det det2 : PathSlot → Option RelPath)
    (s : PathSlot) (v : String) (rel : RelPath)
    (hc : (loadConfig d).1 s = some v) (hn : normalizeSpec v = some rel)
    (hg : noGlob rel = true) (hf : slotFound fs s rel = true) :
    entriesFor (resolveProject root rootName fs d) s =
      [⟨s, some (root ++ rel), .explicitSrc, true⟩] ∧
    resolveSlot root fs (loadConfig d).1 det s =
      resolveSlot root fs (loadConfig d).1 det2 s := by
  have hval : ∀ dt : PathSlot → Option RelPath,
      resolveSlot root fs (loadConfig d).1 dt s = resolveValue root fs s v .explicitT := by
    intro dt
    simp [resolveSlot, hc]
  constructor
  · rw [entriesFor_eq, hval]
    simp only [resolveValue, hn]
    rw [resolveRel_found_noGlob hg hf root v .explicitT]
    rfl
  · rw [hval det, hval det2]

/-- C1 witness: an explicit `documentation: "docs"` with `docs/` on disk
resolves to the root-joined `docs` with source `explicit`, independently
of the detector. -/
theorem c1_explicit_priority_witness :
    ((loadConfig descDocs).1 .documentation = some "docs" ∧
      normalizeSpec "docs" = some ["docs"] ∧
      slotFound fsDocs .documentation ["docs"] = true) ∧
    entriesFor (resolveProject rootR "demo" fsDocs descDocs) .documentation =
      [⟨.documentation, some (rootR ++ ["docs"]), .explicitSrc, true⟩] ∧
    resolveSlot rootR fsDocs (loadConfig descDocs).1 detNone .documentation =
      resolveSlot rootR fsDocs (loadConfig descDocs).1 detGhost .documentation :=
  ⟨⟨by decide, by decide, by decide⟩,
   c1_explicit_priority rootR "demo" fsDocs descDocs detNone detGhost .documentation
     "docs" ["docs"] (by decide) (by decide) (by decide) (by decide)⟩

/-- C2: every resolved path of every resolution pass has the project root
as a prefix; and a spec escaping the root (`../../etc/passwd`) produces a
fatal validation error and an invalid entry with no path, never a
successful path outside the root. -/
theorem c2_containment :
    (∀ (root : List String) (rootName : String) (fs : FileSystem) (d : DescriptorFile),
      ∀ e ∈ (resolveProject root rootName fs d).entries,
        ∀ p, e.path = some p → ∃ q, p = root ++ q) ∧
    (Diag.outsideRoot .documentation "../../etc/passwd" ∈
        (resolveProject rootR "demo" fsE descEscape).errors ∧
      entriesFor (resolveProject rootR "demo" fsE descEscape) .documentation =
        [⟨.documentation, none, .explicitSrc, false⟩]) := by
  refine ⟨?_, by decide, by decide⟩
  intro root rootName fs d e he p hp
  rw [resolveProject_entries] at he
  rcases List.mem_map.mp he with ⟨s, _, rfl⟩
  exact resolveSlot_path root fs _ _ s hp

/-- C2 witness: a concrete resolved entry of a concrete pass has the root
as a prefix of its path. -/
theorem c2_containment_witness :
    (⟨.documentation, some (rootR ++ ["docs"]), .explicitSrc, true⟩ : ResolvedPathEntry) ∈
      (resolveProject rootR "demo" fsDocs descDocs).entries ∧
    ∃ q, rootR ++ ["docs"] = rootR ++ q :=
  ⟨by decide,
   c2_containment.1 rootR "demo" fsDocs descDocs
     ⟨.documentation, some (rootR ++ ["docs"]), .explicitSrc, true⟩ (by decide)
     (rootR ++ ["docs"]) rfl⟩

/-- C8: the detector's scan is structurally bounded on every input tree —
at most `nodeCap` directories are visited, every visited directory lies at
depth between 1 and `depthCap`, and detection only ever answers with a
visited directory (or degrades to "not detected"), never erring. -/
theorem c8_scan_bounded (fs : FileSystem) :
    (scanDirs fs).length ≤ nodeCap ∧
    (∀ p ∈ scanDirs fs, 1 ≤ p.length ∧ p.length ≤ depthCap) ∧
    (∀ (r : DetectionRule) (p : RelPath) (conf : Bool),
      detectDir fs r = some (p, conf) → p ∈ scanDirs fs) := by
  refine ⟨?_, ?_, ?_⟩
  · rw [scanDirs, List.length_take]
    exact min_le_left _ _
  · intro p hp
    rw [scanDirs] at hp
    have hm := (mem_sortBy scanLe p _).mp (List.mem_of_mem_take hp)
    rcases List.mem_filter.mp hm with ⟨_, hcond⟩
    simp only [Bool.and_eq_true, decide_eq_true_eq] at hcond
    exact hcond
  · intro r p conf hd
    simp only [detectDir] at hd
    split at hd
    next d h1 =>
      simp only [Option.some.injEq, Prod.mk.injEq] at hd
      rcases hd with ⟨rfl, rfl⟩
      exact List.mem_of_find?_eq_some h1
    next h1 =>
      split at hd
      next d h2 =>
        simp only [Option.some.injEq, Prod.mk.injEq] at hd
        rcases hd with ⟨rfl, rfl⟩
        exact List.mem_of_find?_eq_some h2
      next h2 => exact absurd hd (by simp)

/-- C8 witness: on a tree with a chain deeper than the depth cap, the scan
stays within its caps and detection still answers from the visited set. -/
theorem c8_scan_bounded_witness :
    (scanDirs fsDeep).length ≤ nodeCap ∧
    (1 ≤ (["a", "b", "c"] : RelPath).length ∧ (["a", "b", "c"] : RelPath).length ≤ depthCap) ∧
    ["outputs"] ∈ scanDirs fsDeep :=
  ⟨(c8_scan_bounded fsDeep).1,
   (c8_scan_bounded fsDeep).2.1 ["a", "b", "c"] (by decide),
   (c8_scan_bounded fsDeep).2.2 designOutputsRule ["outputs"] true (by decide)⟩

/-- C5: a slot whose resolved relative path does not exist on disk is
fatal when the value came from explicit config (entry invalid, diagnostic
in the result's errors) and non-fatal when it came from detection or a
legacy default (entry `unresolved`, diagnostic a warning, never an
error). -/
theorem c5_missing_severity (root : List String) (rootName : String)
    (fs : FileSystem) (d : DescriptorFile) (config : PathSlot → Option String)
    (det : PathSlot → Option RelPath) (s : PathSlot) (v : String) (rel : RelPath) :
    ((loadConfig d).1 s = some v → normalizeSpec v = some rel →
      slotFound fs s rel = false →
      (resolveSlot root fs (loadConfig d).1 (detectSlot fs rootName) s).1.valid = false ∧
      (resolveSlot root fs (loadConfig d).1 (detectSlot fs rootName) s).2 =
        [.explicitMissing s v] ∧
      Diag.explicitMissing s v ∈ (resolveProject root rootName fs d).errors) ∧
    (config s = none → det s = some rel → slotFound fs s rel = false →
      (resolveSlot root fs config det s).1.source = .unresolved ∧
      (resolveSlot root fs config det s).2 = [.pathNotFound s (pathToString rel)] ∧
      ∀ dg ∈ (resolveSlot root fs config det s).2, dg.isError = false) ∧
    ((loadConfig d).1 s = none → detectSlot fs rootName s = none →
      normalizeSpec (legacyDefault s) = some rel → slotFound fs s rel = false →
      (resolveSlot root fs (loadConfig d).1 (detectSlot fs rootName) s).1.source =
        .unresolved ∧
      (resolveSlot root fs (loadConfig d).1 (detectSlot fs rootName) s).2 =
        [.pathNotFound s (legacyDefault s)] ∧
      Diag.pathNotFound s (legacyDefault s) ∈
        (resolveProject root rootName fs d).warnings ∧
      Diag.pathNotFound s (legacyDefault s) ∉
        (resolveProject root rootName fs d).errors) := by
  refine ⟨?_, ?_, ?_⟩
  · intro hc hn hf
    have hsl : resolveSlot root fs (loadConfig d).1 (detectSlot fs rootName) s =
        missOutcome s v .explicitT := by
      simp only [resolveSlot, hc, resolveValue, hn]
      exact resolveRel_miss hf root v .explicitT
    refine ⟨by rw [hsl]; rfl, by rw [hsl]; rfl, ?_⟩
    refine mem_errors_of_slot root rootName fs d s ?_ rfl
    rw [hsl]
    exact List.mem_cons_self _ _
  · intro hc hdet hf
    have hsl : resolveSlot root fs config det s =
        missOutcome s (pathToString rel) .detectedT := by
      simp only [resolveSlot, hc, hdet]
      exact resolveRel_miss hf root (pathToString rel) .detectedT
    refine ⟨by rw [hsl]; rfl, by rw [hsl]; rfl, ?_⟩
    intro dg hdg
    rw [hsl] at hdg
    rcases List.mem_cons.mp hdg with rfl | h0
    · rfl
    · simp at h0
  · intro hc hdet hn hf
    have hsl : resolveSlot root fs (loadConfig d).1 (detectSlot fs rootName) s =
        missOutcome s (legacyDefault s) .defaultT := by
      simp only [resolveSlot, hc, hdet, resolveValue, hn]
      exact resolveRel_miss hf root (legacyDefault s) .defaultT
    refine ⟨by rw [hsl]; rfl, by rw [hsl]; rfl, ?_, ?_⟩
    · refine mem_warnings_of_slot root rootName fs d s ?_ rfl
      rw [hsl]
      exact List.mem_cons_self _ _
    · exact not_mem_errors root rootName fs d rfl

/-- C5 witness: explicit `documentation: "wiki"` with no `wiki/` is a
fatal error for that slot; a detected or defaulted path that does not
exist leaves the slot `unresolved` with a warning only. -/
theorem c5_missing_severity_witness :
    ((resolveSlot rootR fsDocs (loadConfig descWiki).1 (detectSlot fsDocs "demo")
        .documentation).1.valid = false ∧
      Diag.explicitMissing .documentation "wiki" ∈
        (resolveProject rootR "demo" fsDocs descWiki).errors) ∧
    ((resolveSlot rootR fsEmpty cfgNone detGhost .documentation).1.source =
        .unresolved ∧
      (resolveSlot rootR fsEmpty cfgNone detGhost .documentation).2 =
        [.pathNotFound .documentation (pathToString ["ghost"])]) ∧
    ((resolveSlot rootR fsEmpty (loadConfig .absent).1 (detectSlot fsEmpty "demo")
        .documentation).1.source = .unresolved ∧
      Diag.pathNotFound .documentation (legacyDefault .documentation) ∈
        (resolveProject rootR "demo" fsEmpty .absent).warnings ∧
      Diag.pathNotFound .documentation (legacyDefault .documentation) ∉
        (resolveProject rootR "demo" fsEmpty .absent).errors) := by
  have ha := (c5_missing_severity rootR "demo" fsDocs descWiki cfgNone detGhost
    .documentation "wiki" ["wiki"]).1 (by decide) (by decide) (by decide)
  have hb := (c5_missing_severity rootR "demo" fsEmpty .absent cfgNone detGhost
    .documentation "x" ["ghost"]).2.1 rfl (by decide) (by decide)
  have hcx := (c5_missing_severity rootR "demo" fsEmpty .absent cfgNone detGhost
    .documentation "docs" ["docs"]).2.2 (by decide) (by decide) (by decide) (by decide)
  exact ⟨⟨ha.1, ha.2.2⟩, ⟨hb.1, hb.2.1⟩, ⟨hcx.1, hcx.2.2.1, hcx.2.2.2⟩⟩

/-- C6: when an explicit glob on a glob slot matches more than one file,
the selected file is the first match in lexicographic order of the full
relative path, the entry is explicit and valid, and a warning is emitted
stating the total number of matches. -/
theorem c6_glob_ambiguity (root : List String) (rootName : String)
    (fs : FileSystem) (d : DescriptorFile) (s : PathSlot) (v : String) (rel : RelPath)
    (hgs : isGlobSlot s = true) (hc : (loadConfig d).1 s = some v)
    (hn : normalizeSpec v = some rel)
    (hcount : 2 ≤ (fs.files.filter (fun f => globPath rel f)).length) :
    ∃ m, entriesFor (resolveProject root rootName fs d) s =
        [⟨s, some (root ++ m), .explicitSrc, true⟩] ∧
      m ∈ fs.files ∧ globPath rel m = true ∧
      (∀ f ∈ fs.files, globPath rel f = true → pathLe m f = true) ∧
      (resolveSlot root fs (loadConfig d).1 (detectSlot fs rootName) s).2 =
        [.globAmbiguous s (fs.files.filter (fun f => globPath rel f)).length] ∧
      Diag.globAmbiguous s (fs.files.filter (fun f => globPath rel f)).length ∈
        (resolveProject root rootName fs d).warnings := by
  have hlen : (globMatches fs rel).length =
      (fs.files.filter (fun f => globPath rel f)).length :=
    length_sortBy pathLe _
  cases hm : globMatches fs rel with
  | nil => rw [hm] at hlen; simp at hlen; omega
  | cons m rest =>
    cases rest with
    | nil => rw [hm] at hlen; simp at hlen; omega
    | cons r0 rs =>
      have hmm : m ∈ globMatches fs rel := hm ▸ List.mem_cons_self _ _
      have hmf := List.mem_filter.mp ((mem_sortBy pathLe m _).mp hmm)
      have hmin : ∀ f ∈ fs.files, globPath rel f = true → pathLe m f = true := by
        intro f hf hgf
        exact sortBy_head_min pathLe pathLe_total pathLe_trans hm f
          (List.mem_filter.mpr ⟨hf, hgf⟩)
      have hsl : resolveSlot root fs (loadConfig d).1 (detectSlot fs rootName) s =
          (⟨s, some (root ++ m), .explicitSrc, true⟩,
           [.globAmbiguous s ((r0 :: rs).length + 1)]) := by
        simp only [resolveSlot, hc, resolveValue, hn, resolveRel, hgs, if_true, hm]
        rfl
      have hcnt : (r0 :: rs).length + 1 =
          (fs.files.filter (fun f => globPath rel f)).length := by
        rw [← hlen, hm]
        simp
      refine ⟨m, ?_, hmf.1, hmf.2, hmin, ?_, ?_⟩
      · rw [entriesFor_eq, hsl]
      · rw [hsl, hcnt]
      · refine mem_warnings_of_slot root rootName fs d s ?_ rfl
        rw [hsl, hcnt]
        exact List.mem_cons_self _ _

/-- C6 witness (scenario E): `schematic: "*.kicad_sch"` over
`a.kicad_sch`, `b.kicad_sch` selects `a.kicad_sch` and warns with total
match count 2. -/
theorem c6_glob_ambiguity_witness :
    (2 ≤ (fsE.files.filter (fun f => globPath ["*.kicad_sch"] f)).length) ∧
    ∃ m, entriesFor (resolveProject rootR "demo" fsE descE) .schematic =
        [⟨.schematic, some (rootR ++ m), .explicitSrc, true⟩] ∧
      m ∈ fsE.files ∧ globPath ["*.kicad_sch"] m = true ∧
      (∀ f ∈ fsE.files, globPath ["*.kicad_sch"] f = true → pathLe m f = true) ∧
      (resolveSlot rootR fsE (loadConfig descE).1 (detectSlot fsE "demo") .schematic).2 =
        [.globAmbiguous .schematic
          (fsE.files.filter (fun f => globPath ["*.kicad_sch"] f)).length] ∧
      Diag.globAmbiguous .schematic
          (fsE.files.filter (fun f => globPath ["*.kicad_sch"] f)).length ∈
        (resolveProject rootR "demo" fsE descE).warnings :=
  ⟨by decide,
   c6_glob_ambiguity rootR "demo" fsE descE .schematic "*.kicad_sch" ["*.kicad_sch"]
     rfl (by decide) (by decide) (by decide)⟩

/-- C7 counterexample: with a root containing `outputs/` and `exports/`
(each holding a PDF), no config, and the designOutputs rule whose keyword
set contains `output` and `export`, detection resolves the slot to
`exports` — not to `outputs` as the claim states. -/
theorem c7_counterexample :
    detectSlot fsD "demo" PathSlot.designOutputs = some ["exports"] ∧
    detectSlot fsD "demo" PathSlot.designOutputs ≠ some ["outputs"] := by
  constructor
  · decide
  · decide

/-- C7 (amended): for every detection query, a shallower candidate always
beats a deeper one and among equal depth the lexicographically first
directory name wins (the scan order `scanLe`); in the scenario with both
`outputs/` and `exports/` holding a PDF, the designOutputs slot therefore
resolves to `exports`, the lexicographically first of the two. -/
theorem c7_tie_break :
    (∀ (fs : FileSystem) (r : DetectionRule) (p : RelPath),
      detectDir fs r = some (p, true) →
      ∀ q ∈ scanDirs fs, fullMatch fs r q = true → scanLe p q = true) ∧
    (∀ (fs : FileSystem) (r : DetectionRule) (p : RelPath),
      detectDir fs r = some (p, false) →
      ∀ q ∈ scanDirs fs, nameMatchesRule r (leafName q) = true → scanLe p q = true) ∧
    detectSlot fsD "demo" PathSlot.designOutputs = some ["exports"] := by
  have hsorted : ∀ fs : FileSystem,
      (scanDirs fs).Pairwise (fun x y => scanLe x y = true) := by
    intro fs
    rw [scanDirs]
    exact List.Pairwise.sublist (List.take_sublist _ _)
      (pairwise_sortBy scanLe scanLe_total scanLe_trans _)
  refine ⟨?_, ?_, by decide⟩
  · intro fs r p hd q hq hmq
    simp only [detectDir] at hd
    split at hd
    next d h1 =>
      simp only [Option.some.injEq, Prod.mk.injEq] at hd
      rcases hd with ⟨rfl, -⟩
      exact find?_min scanLe scanLe_total (hsorted fs) h1 q hq hmq
    next h1 =>
      split at hd
      next d h2 => simp at hd
      next h2 => exact absurd hd (by simp)
  · intro fs r p hd q hq hmq
    simp only [detectDir] at hd
    split at hd
    next d h1 => simp at hd
    next h1 =>
      split at hd
      next d h2 =>
        simp only [Option.some.injEq, Prod.mk.injEq] at hd
        rcases hd with ⟨rfl, -⟩
        exact find?_min scanLe scanLe_total (hsorted fs) h2 q hq hmq
      next h2 => exact absurd hd (by simp)

/-- C7 witness: the tie-break applied to the scenario — `exports` wins and
is at-or-before `outputs` in the scan order. -/
theorem c7_tie_break_witness :
    detectDir fsD designOutputsRule = some (["exports"], true) ∧
    scanLe ["exports"] ["outputs"] = true :=
  ⟨by decide,
   c7_tie_break.1 fsD designOutputsRule ["exports"] (by decide) ["outputs"]
     (by decide) (by decide)⟩

end KiCADPrism
